import Mathlib

/-!
Shallow embedding of the distributed-ledger core (src/src/transaction.rs,
src/src/block.rs, src/src/ledger.rs, src/src/performance.rs).

Conventions of the embedding:
* u64 values are `Nat`; wherever the Rust code performs u64 arithmetic whose
  overflow/underflow matters, the reduction modulo 2^64 is explicit
  (release-mode wrapping semantics).
* `Uuid` is modelled as `Nat`; `DateTime<Utc>` as `Int` (the second-resolved
  timestamp that participates in the digests).
* SHA-256 is an external library call; it is modelled as an abstract
  `HashModel` parameter supplying the three digest functions the code uses
  (`Transaction::calculate_signature`, `Transaction::hash`,
  `Block::calculate_hash`).  Concrete instances are supplied for witnesses.
* Sources of ambient nondeterminism (random v4 UUIDs, the wall clock, the
  measured batch duration) are explicit parameters of the constructors.
* `Block::mine` is a possibly nonterminating loop; it is modelled with fuel,
  returning `none` when the loop has not finished within the fuel (and more
  generally `none` marks executions that produce no return value, such as the
  `unwrap` panic on an empty chain).
* `Duration` values are nonnegative rationals (the code's `as_secs_f64`
  arithmetic, with exact rather than floating-point division).
-/

/-- `LedgerError` from src/src/error.rs.  The `anyhow` payload of `Internal`
is modelled as its message string. -/
inductive LedgerError where
  | InvalidTransaction : String → LedgerError
  | BlockValidationFailed : String → LedgerError
  | InsufficientBalance : LedgerError
  | DuplicateTransaction : LedgerError
  | DuplicateBlock : LedgerError
  | PerformanceLimitExceeded : String → LedgerError
  | Internal : String → LedgerError
  deriving DecidableEq, Repr

/-- `Transaction` from src/src/transaction.rs.  `from`/`to` are rendered as
`fromAddr`/`toAddr` (`from` is reserved in Lean). -/
structure Transaction where
  id : Nat
  fromAddr : String
  toAddr : String
  amount : Nat
  timestamp : Int
  signature : String
  deriving DecidableEq, Repr

/-- `Block` from src/src/block.rs. -/
structure Block where
  id : Nat
  previous_hash : String
  transactions : List Transaction
  timestamp : Int
  nonce : Nat
  hash : String
  deriving DecidableEq, Repr

/-- The three SHA-256-based digest functions used by the code, abstracted:
`txSig` is `Transaction::calculate_signature(id, from, to, amount, timestamp)`,
`txHash` is `Transaction::hash` (digest of the serialized record), and
`blockHash` is `Block::calculate_hash(id, previous_hash, timestamp, nonce,
transaction hashes in order)`. -/
structure HashModel where
  txSig : Nat → String → String → Nat → Int → String
  txHash : Transaction → String
  blockHash : Nat → String → Int → Nat → List String → String

/-- `Transaction::new(from, to, amount)`; the randomly drawn id and the wall
clock reading are explicit parameters. -/
def Transaction.new (H : HashModel) (id : Nat) (ts : Int) (f t : String)
    (amount : Nat) : Transaction :=
  { id := id, fromAddr := f, toAddr := t, amount := amount, timestamp := ts,
    signature := H.txSig id f t amount ts }

/-- `Transaction::validate` from src/src/transaction.rs lines 48-83. -/
def Transaction.validate (H : HashModel) (t : Transaction) :
    Except LedgerError Unit :=
  if t.amount = 0 then
    .error (.InvalidTransaction "Amount must be greater than zero")
  else if t.fromAddr = t.toAddr then
    .error (.InvalidTransaction "Sender and receiver cannot be the same")
  else if t.fromAddr = "" ∨ t.toAddr = "" then
    .error (.InvalidTransaction "From and to addresses cannot be empty")
  else if t.signature ≠ H.txSig t.id t.fromAddr t.toAddr t.amount t.timestamp then
    .error (.InvalidTransaction "Invalid transaction signature")
  else
    .ok ()

/-- `Block::calculate_hash` from src/src/block.rs lines 36-49. -/
def Block.calculateHash (H : HashModel) (b : Block) : String :=
  H.blockHash b.id b.previous_hash b.timestamp b.nonce
    (b.transactions.map H.txHash)

/-- `Block::new(previous_hash, transactions)`; the random id and clock reading
are explicit.  Sets `nonce = 0` and precomputes `hash`. -/
def Block.new (H : HashModel) (id : Nat) (ts : Int) (previous_hash : String)
    (txs : List Transaction) : Block :=
  let b : Block := { id := id, previous_hash := previous_hash,
                     transactions := txs, timestamp := ts, nonce := 0,
                     hash := "" }
  { b with hash := Block.calculateHash H b }

/-- The mining target `"0".repeat(difficulty)`. -/
def mineTarget (difficulty : Nat) : String :=
  String.mk (List.replicate difficulty (Char.ofNat 48))

/-- `str.starts_with(pre)`, rendered as a character-list prefix test so that
it evaluates by kernel reduction. -/
def strStartsWith (s pre : String) : Bool :=
  pre.data.isPrefixOf s.data

/-- The loop body of `Block::mine`, with fuel bounding the number of
iterations; `none` means the loop has not terminated within the fuel. -/
def Block.mineGo (H : HashModel) : Nat → String → Block → Option Block
  | 0, target, b => if strStartsWith b.hash target then some b else none
  | fuel + 1, target, b =>
    if strStartsWith b.hash target then some b
    else
      let b1 : Block := { b with nonce := (b.nonce + 1) % 2 ^ 64 }
      Block.mineGo H fuel target { b1 with hash := Block.calculateHash H b1 }

/-- `Block::mine` from src/src/block.rs lines 51-58, fuelled. -/
def Block.mine (H : HashModel) (fuel : Nat) (b : Block) (difficulty : Nat) :
    Option Block :=
  Block.mineGo H fuel (mineTarget difficulty) b

/-- The per-transaction validation loop inside `Block::validate`. -/
def validateTxs (H : HashModel) : List Transaction → Except LedgerError Unit
  | [] => .ok ()
  | t :: ts =>
    match Transaction.validate H t with
    | .error e => .error e
    | .ok _ => validateTxs H ts

/-- `Block::validate` from src/src/block.rs lines 60-88. -/
def Block.validate (H : HashModel) (b : Block) (previous : Option Block) :
    Except LedgerError Unit :=
  if b.hash ≠ Block.calculateHash H b then
    .error (.BlockValidationFailed "Invalid block hash")
  else
    match previous with
    | some prev =>
      if b.previous_hash ≠ prev.hash then
        .error (.BlockValidationFailed "Invalid previous hash")
      else validateTxs H b.transactions
    | none =>
      if b.previous_hash ≠ "" then
        .error (.BlockValidationFailed "Genesis block should have empty previous hash")
      else validateTxs H b.transactions

/-- Lookup in an association-list rendering of a hash map (`DashMap`):
the value at the first matching key. -/
def lookupBal (m : List (String × Nat)) (k : String) : Option Nat :=
  (m.find? (fun p => p.1 = k)).map (fun p => p.2)

/-- `map.entry(k).and_modify(f).or_insert(dflt)`: apply `f` to the entry when
the key is present, otherwise insert `dflt`. -/
def entryModifyOrInsert (m : List (String × Nat)) (k : String) (f : Nat → Nat)
    (dflt : Nat) : List (String × Nat) :=
  if (m.find? (fun p => p.1 = k)).isSome then
    m.map (fun p => if p.1 = k then (p.1, f p.2) else p)
  else
    m ++ [(k, dflt)]

/-- Release-mode wrapping u64 subtraction: `b - a` modulo `2^64`. -/
def u64sub (b a : Nat) : Nat :=
  (b + (2 ^ 64 - a % 2 ^ 64)) % 2 ^ 64

/-- The balance mutation for one drained transaction, src/src/ledger.rs
lines 101-112: a wrapping debit on `from` when non-empty (no-op insert of 0
when the account is absent), then a wrapping credit on `to` (inserting the
amount when absent). -/
def applyTxBalance (m : List (String × Nat)) (tx : Transaction) :
    List (String × Nat) :=
  let m1 :=
    if tx.fromAddr ≠ "" then
      entryModifyOrInsert m tx.fromAddr (fun b => u64sub b tx.amount) 0
    else m
  entryModifyOrInsert m1 tx.toAddr (fun b => (b + tx.amount) % 2 ^ 64) tx.amount

/-- Balance updates for a drained batch, in drain order. -/
def applyBalances (m : List (String × Nat)) (txs : List Transaction) :
    List (String × Nat) :=
  txs.foldl applyTxBalance m

/-- The mutable state behind `PerformanceMonitor` (src/src/performance.rs);
durations are nonnegative rationals standing for `as_secs_f64` values. -/
structure PerformanceData where
  total_transactions : Nat
  batch_times : List ℚ
  batch_sizes : List Nat
  peak_tps : ℚ
  deriving DecidableEq, Repr

/-- `PerformanceMonitor::new`. -/
def PerformanceData.init : PerformanceData :=
  { total_transactions := 0, batch_times := [], batch_sizes := [],
    peak_tps := 0 }

/-- `PerformanceMonitor::record_batch` from src/src/performance.rs
lines 39-62. -/
def PerformanceData.recordBatch (d : PerformanceData) (batchSize : Nat)
    (processingTime : ℚ) : PerformanceData :=
  let total := (d.total_transactions + batchSize) % 2 ^ 64
  let times := d.batch_times ++ [processingTime]
  let sizes := d.batch_sizes ++ [batchSize]
  let times2 := if times.length > 100 then times.tail else times
  let sizes2 := if times.length > 100 then sizes.tail else sizes
  let currentTps : ℚ :=
    if 0 < processingTime then (batchSize : ℚ) / processingTime else 0
  let peak := if d.peak_tps < currentTps then currentTps else d.peak_tps
  { total_transactions := total, batch_times := times2, batch_sizes := sizes2,
    peak_tps := peak }

/-- Pool membership (`transaction_pool.contains_key`). -/
def poolContains (pool : List (Nat × Transaction)) (id : Nat) : Bool :=
  (pool.find? (fun p => p.1 = id)).isSome

/-- Pool insertion (`transaction_pool.insert`): replace when present,
append when absent. -/
def poolInsert (pool : List (Nat × Transaction)) (id : Nat)
    (tx : Transaction) : List (Nat × Transaction) :=
  if (pool.find? (fun p => p.1 = id)).isSome then
    pool.map (fun p => if p.1 = id then (p.1, tx) else p)
  else
    pool ++ [(id, tx)]

/-- Pool lookup by id. -/
def poolLookup (pool : List (Nat × Transaction)) (id : Nat) :
    Option Transaction :=
  (pool.find? (fun p => p.1 = id)).map (fun p => p.2)

/-- The state owned by `DistributedLedger` (src/src/ledger.rs): the chain,
the balance map, the pending pool, the bounded queue and the monitor data. -/
structure LedgerState where
  blocks : List Block
  balances : List (String × Nat)
  pool : List (Nat × Transaction)
  queue : List Transaction
  perf : PerformanceData
  deriving DecidableEq, Repr

/-- The queue capacity (`bounded(100_000)`). -/
def queueCapacity : Nat := 100000

/-- `DistributedLedger::new` plus `initialize_genesis_block`: empty state with
the unmined genesis block `Block::new("", [])` appended; the genesis block's
random id and clock reading are explicit. -/
def DistributedLedger.new (H : HashModel) (gid : Nat) (gts : Int) :
    LedgerState :=
  { blocks := [Block.new H gid gts "" []], balances := [], pool := [],
    queue := [], perf := PerformanceData.init }

/-- `DistributedLedger::add_transaction` from src/src/ledger.rs lines 49-80.
Returns the successor state and the error, if any. -/
def addTransaction (H : HashModel) (s : LedgerState) (tx : Transaction) :
    LedgerState × Option LedgerError :=
  match Transaction.validate H tx with
  | .error e => (s, some e)
  | .ok _ =>
    if poolContains s.pool tx.id then (s, some .DuplicateTransaction)
    else if tx.fromAddr ≠ "" ∧ (lookupBal s.balances tx.fromAddr).getD 0 < tx.amount then
      (s, some .InsufficientBalance)
    else
      let s1 : LedgerState := { s with pool := poolInsert s.pool tx.id tx }
      if s1.queue.length < queueCapacity then
        ({ s1 with queue := s1.queue ++ [tx] }, none)
      else
        (s1, some (.PerformanceLimitExceeded "Transaction queue is full"))

/-- `DistributedLedger::process_transactions` from src/src/ledger.rs
lines 82-137.  The new block's random id, its clock reading, and the measured
batch duration are explicit; `fuel` bounds the mining loop.  The outer `none`
marks an execution that produces no return value (mining not finished within
the fuel, or the `unwrap` panic of `get_latest_block` on an empty chain). -/
def processTransactions (H : HashModel) (fuel : Nat) (bid : Nat) (bts : Int)
    (dur : ℚ) (s : LedgerState) (batchSize : Nat) :
    Option (LedgerState × Option LedgerError) :=
  let txs := s.queue.take batchSize
  if txs.isEmpty then some (s, none)
  else
    let newBalances := applyBalances s.balances txs
    let previousHash := ((s.blocks.getLast?).map Block.hash).getD ""
    let s1 : LedgerState :=
      { s with queue := s.queue.drop batchSize, balances := newBalances }
    match Block.mine H fuel (Block.new H bid bts previousHash txs) 2 with
    | none => none
    | some newBlock =>
      match s.blocks.getLast? with
      | none => none
      | some latest =>
        match Block.validate H newBlock (some latest) with
        | .error e => some (s1, some e)
        | .ok _ =>
          some ({ s1 with blocks := s1.blocks ++ [newBlock],
                          perf := PerformanceData.recordBatch s1.perf
                                    txs.length dur }, none)

/-- `DistributedLedger::get_balance`. -/
def getBalance (s : LedgerState) (addr : String) : Nat :=
  (lookupBal s.balances addr).getD 0

/-- States reachable from a fresh ledger by any interleaving of submissions
and (sequentialized) processor runs, over all ambient nondeterminism. -/
inductive Reachable (H : HashModel) : LedgerState → Prop where
  | init : ∀ gid gts, Reachable H (DistributedLedger.new H gid gts)
  | submit : ∀ s tx, Reachable H s → Reachable H (addTransaction H s tx).1
  | process : ∀ s fuel bid bts dur batch s' e, Reachable H s →
      processTransactions H fuel bid bts dur s batch = some (s', e) →
      Reachable H s'

/-- The hash-chain well-formedness predicate of §8 invariant 1: every block
after its predecessor links to the predecessor's hash, carries its own
recomputed digest, and meets the difficulty-2 target. -/
def chainOk (H : HashModel) : List Block → Bool
  | [] => true
  | [_] => true
  | a :: b :: rest =>
    (decide (b.previous_hash = a.hash) &&
     decide (b.hash = Block.calculateHash H b) &&
     strStartsWith b.hash (mineTarget 2)) && chainOk H (b :: rest)

/-- Discriminator for the `process` error contract of §6: `true` exactly when
the result is Ok or a `BlockValidationFailed` error. -/
def isOkOrBVF : Option LedgerError → Bool
  | none => true
  | some (.BlockValidationFailed _) => true
  | some _ => false

/-- A concrete `HashModel` instance for witnesses: constant digests, every
block hash already meeting the difficulty-2 target. -/
def hashA : HashModel :=
  { txSig := fun _ _ _ _ _ => "sig", txHash := fun _ => "t",
    blockHash := fun _ _ _ _ _ => "00" }

/-- A concrete `HashModel` instance whose block digest depends on the nonce:
mining from nonce 0 takes two iterations to reach the target. -/
def hashB : HashModel :=
  { txSig := fun _ _ _ _ _ => "sig", txHash := fun _ => "t",
    blockHash := fun _ _ _ n _ => if n < 2 then "x" else "00" }

/-- The concrete block reached by mining `Block.new hashB 0 0 "" []` at
difficulty 2: two nonce increments. -/
def minedBlockB : Block :=
  { id := 0, previous_hash := "", transactions := [], timestamp := 0,
    nonce := 2, hash := "00" }

/-- A concrete `HashModel` instance whose block digest depends on the block
id, separating blocks that differ only in their randomly drawn id. -/
def hashC : HashModel :=
  { txSig := fun _ _ _ _ _ => "sig", txHash := fun _ => "t",
    blockHash := fun i _ _ n _ =>
      if n = 0 then "1" else if i = 0 then "00a" else "00b" }

/-- A fresh ledger over `hashA`. -/
def freshLedgerA : LedgerState := DistributedLedger.new hashA 0 0

/-- The S1 genesis-issuance transaction `(from = "", to = "alice",
amount = 1_000_000)` over `hashA`. -/
def txGenesisAlice : Transaction := Transaction.new hashA 1 0 "" "alice" 1000000

/-- The S3 transfer `("alice", "bob", 1)` over `hashA`. -/
def txAliceBob : Transaction := Transaction.new hashA 2 0 "alice" "bob" 1

/-- A ledger state whose balance map holds `alice ↦ 0` while the queue holds
an admitted-looking transfer `alice → bob` of amount 1 (the overspend-race
shape of §7: the balance moved after the optimistic submit check). -/
def overspendState : LedgerState :=
  { blocks := [Block.new hashA 0 0 "" []], balances := [("alice", 0)],
    pool := [], queue := [Transaction.new hashA 3 0 "alice" "bob" 1],
    perf := PerformanceData.init }

/-- A ledger state whose queue holds a transaction with amount 0, which fails
individual validation inside block validation. -/
def invalidQueueState : LedgerState :=
  { blocks := [Block.new hashA 0 0 "" []], balances := [],
    pool := [], queue := [Transaction.new hashA 4 0 "alice" "bob" 0],
    perf := PerformanceData.init }

/-- A ledger state with one good pending transfer and the funds to cover it. -/
def goodQueueState : LedgerState :=
  { blocks := [Block.new hashA 0 0 "" []], balances := [("alice", 5)],
    pool := [], queue := [Transaction.new hashA 5 0 "alice" "bob" 2],
    perf := PerformanceData.init }

/-- The state produced by a successful `process` run on `goodQueueState`. -/
def goodProcessedState : LedgerState :=
  { blocks := [Block.new hashA 0 0 "" [],
               { id := 7, previous_hash := "00",
                 transactions := [Transaction.new hashA 5 0 "alice" "bob" 2],
                 timestamp := 0, nonce := 0, hash := "00" }],
    balances := [("alice", 3), ("bob", 2)], pool := [], queue := [],
    perf := { total_transactions := 1, batch_times := [0],
              batch_sizes := [1], peak_tps := 0 } }

/-- The state left behind by the failing `process` run on
`invalidQueueState`: balances mutated, queue drained, no block appended. -/
def invalidProcessedState : LedgerState :=
  { blocks := [Block.new hashA 0 0 "" []],
    balances := [("alice", 0), ("bob", 0)], pool := [], queue := [],
    perf := PerformanceData.init }

theorem mineGo_startsWith (H : HashModel) (fuel : Nat) (target : String)
    (b b' : Block) (h : Block.mineGo H fuel target b = some b') :
    strStartsWith b'.hash target = true := by
  induction fuel generalizing b with
  | zero =>
    simp only [Block.mineGo] at h
    split at h
    · injection h with h2; subst h2; assumption
    · exact absurd h (by simp)
  | succ n ih =>
    simp only [Block.mineGo] at h
    split at h
    · injection h with h2; subst h2; assumption
    · exact ih _ h

theorem mineGo_hash (H : HashModel) (fuel : Nat) (target : String)
    (b b' : Block) (hc : b.hash = Block.calculateHash H b)
    (h : Block.mineGo H fuel target b = some b') :
    b'.hash = Block.calculateHash H b' := by
  induction fuel generalizing b with
  | zero =>
    simp only [Block.mineGo] at h
    split at h
    · injection h with h2; subst h2; assumption
    · exact absurd h (by simp)
  | succ n ih =>
    simp only [Block.mineGo] at h
    split at h
    · injection h with h2; subst h2; assumption
    · refine ih _ ?_ h
      simp [Block.calculateHash]

theorem mineGo_nonce (H : HashModel) (fuel : Nat) (target : String)
    (b b' : Block) (hb : b.nonce + fuel < 2 ^ 64)
    (h : Block.mineGo H fuel target b = some b') : b.nonce ≤ b'.nonce := by
  induction fuel generalizing b with
  | zero =>
    simp only [Block.mineGo] at h
    split at h
    · injection h with h2; subst h2; exact le_refl _
    · exact absurd h (by simp)
  | succ n ih =>
    simp only [Block.mineGo] at h
    split at h
    · injection h with h2; subst h2; exact le_refl _
    · have hlt : b.nonce + 1 < 2 ^ 64 := by omega
      have hmod : (b.nonce + 1) % 2 ^ 64 = b.nonce + 1 := Nat.mod_eq_of_lt hlt
      have := ih { b with nonce := (b.nonce + 1) % 2 ^ 64,
                          hash := Block.calculateHash H
                            { b with nonce := (b.nonce + 1) % 2 ^ 64 } }
        (by simp only [hmod]; omega) h
      simp only [hmod] at this
      omega

theorem txValidate_error_shape (H : HashModel) (t : Transaction)
    (e : LedgerError) (h : Transaction.validate H t = .error e) :
    ∃ m, e = .InvalidTransaction m := by
  simp only [Transaction.validate] at h
  split at h
  · exact ⟨_, (Except.error.inj h).symm⟩
  · split at h
    · exact ⟨_, (Except.error.inj h).symm⟩
    · split at h
      · exact ⟨_, (Except.error.inj h).symm⟩
      · split at h
        · exact ⟨_, (Except.error.inj h).symm⟩
        · exact absurd h (by simp)

theorem validateTxs_error (H : HashModel) (l : List Transaction)
    (e : LedgerError) (h : validateTxs H l = .error e) :
    ∃ tx ∈ l, Transaction.validate H tx = .error e := by
  induction l with
  | nil => exact absurd h (by simp [validateTxs])
  | cons t ts ih =>
    simp only [validateTxs] at h
    split at h
    · next heq =>
      refine ⟨t, by simp, ?_⟩
      rw [heq]
      exact congrArg Except.error (Except.error.inj h)
    · obtain ⟨tx, htx, hv⟩ := ih h
      exact ⟨tx, by simp [htx], hv⟩

theorem validateTxs_ok_of_all (H : HashModel) (l : List Transaction)
    (h : ∀ tx ∈ l, Transaction.validate H tx = .ok ()) :
    validateTxs H l = .ok () := by
  induction l with
  | nil => simp [validateTxs]
  | cons t ts ih =>
    simp only [validateTxs]
    rw [h t (by simp)]
    exact ih (fun tx htx => h tx (by simp [htx]))

theorem blockValidate_ok (H : HashModel) (b prev : Block)
    (h : Block.validate H b (some prev) = .ok ()) :
    b.hash = Block.calculateHash H b ∧ b.previous_hash = prev.hash := by
  simp only [Block.validate] at h
  split at h
  · exact absurd h (by simp)
  · split at h
    · exact absurd h (by simp)
    · next h1 h2 =>
      exact ⟨not_not.mp h1, not_not.mp h2⟩

theorem blockValidate_error (H : HashModel) (b : Block) (prev : Option Block)
    (e : LedgerError) (h : Block.validate H b prev = .error e) :
    (∃ m, e = .BlockValidationFailed m) ∨
      validateTxs H b.transactions = .error e := by
  simp only [Block.validate] at h
  split at h
  · exact Or.inl ⟨_, (Except.error.inj h).symm⟩
  · split at h
    · split at h
      · exact Or.inl ⟨_, (Except.error.inj h).symm⟩
      · exact Or.inr h
    · split at h
      · exact Or.inl ⟨_, (Except.error.inj h).symm⟩
      · exact Or.inr h

theorem entryModify_cons_ne (p : String × Nat) (tl : List (String × Nat))
    (k : String) (f : Nat → Nat) (dflt : Nat) (hk : ¬ p.1 = k) :
    entryModifyOrInsert (p :: tl) k f dflt =
      p :: entryModifyOrInsert tl k f dflt := by
  have hp : ¬ ((fun q : String × Nat => decide (q.1 = k)) p = true) := by
    simp [hk]
  by_cases hs : (List.find? (fun q : String × Nat => decide (q.1 = k)) tl).isSome = true
  · simp [entryModifyOrInsert, List.find?_cons_of_neg _ hp, hs, hk]
  · simp [entryModifyOrInsert, List.find?_cons_of_neg _ hp, hs, hk]

theorem entryModify_cons_self (p : String × Nat) (tl : List (String × Nat))
    (f : Nat → Nat) (dflt : Nat) :
    entryModifyOrInsert (p :: tl) p.1 f dflt =
      (p.1, f p.2) :: tl.map (fun q => if q.1 = p.1 then (q.1, f q.2) else q) := by
  have hp : ((fun q : String × Nat => decide (q.1 = p.1)) p = true) := by simp
  simp [entryModifyOrInsert, List.find?_cons_of_pos _ hp]

theorem lookupBal_cons_self (p : String × Nat) (tl : List (String × Nat)) :
    lookupBal (p :: tl) p.1 = some p.2 := by
  unfold lookupBal
  rw [List.find?_cons_of_pos _ (by simp)]
  rfl

theorem lookupBal_cons_ne (p : String × Nat) (tl : List (String × Nat))
    (k : String) (hk : ¬ p.1 = k) :
    lookupBal (p :: tl) k = lookupBal tl k := by
  unfold lookupBal
  rw [List.find?_cons_of_neg _ (by simp [hk])]

theorem lookupBal_entryModify_self (m : List (String × Nat)) (k : String)
    (f : Nat → Nat) (dflt : Nat) :
    lookupBal (entryModifyOrInsert m k f dflt) k =
      some ((lookupBal m k).elim dflt f) := by
  induction m with
  | nil => simp [lookupBal, entryModifyOrInsert]
  | cons p tl ih =>
    by_cases hk : p.1 = k
    · subst hk
      rw [entryModify_cons_self]
      rw [lookupBal_cons_self (p.1, f p.2) _]
      rw [lookupBal_cons_self p tl]
      rfl
    · rw [entryModify_cons_ne p tl k f dflt hk, lookupBal_cons_ne _ _ _ hk,
        lookupBal_cons_ne _ _ _ hk]
      exact ih

theorem lookupBal_map_modify_ne (tl : List (String × Nat)) (k k' : String)
    (f : Nat → Nat) (hne : k' ≠ k) :
    lookupBal (tl.map (fun q => if q.1 = k then (q.1, f q.2) else q)) k' =
      lookupBal tl k' := by
  induction tl with
  | nil => simp [lookupBal]
  | cons q tq ih =>
    by_cases hq : q.1 = k
    · have hq' : ¬ q.1 = k' := by rw [hq]; exact Ne.symm hne
      simp only [List.map_cons, if_pos hq]
      rw [lookupBal_cons_ne (q.1, f q.2) _ k' hq', lookupBal_cons_ne q tq k' hq']
      exact ih
    · simp only [List.map_cons, if_neg hq]
      by_cases hq' : q.1 = k'
      · rw [show q = (q.1, q.2) from rfl] at hq' ⊢
        simp only at hq'
        subst hq'
        rw [lookupBal_cons_self, lookupBal_cons_self]
      · rw [lookupBal_cons_ne q _ k' hq', lookupBal_cons_ne q tq k' hq']
        exact ih

theorem lookupBal_entryModify_ne (m : List (String × Nat)) (k k' : String)
    (f : Nat → Nat) (dflt : Nat) (hne : k' ≠ k) :
    lookupBal (entryModifyOrInsert m k f dflt) k' = lookupBal m k' := by
  induction m with
  | nil => simp [lookupBal, entryModifyOrInsert, Ne.symm hne]
  | cons p tl ih =>
    by_cases hk : p.1 = k
    · subst hk
      rw [entryModify_cons_self]
      by_cases hp' : p.1 = k'
      · exact absurd hp'.symm hne
      · rw [lookupBal_cons_ne (p.1, f p.2) _ k' hp', lookupBal_cons_ne p tl k' hp']
        exact lookupBal_map_modify_ne tl p.1 k' f hne
    · rw [entryModify_cons_ne p tl k f dflt hk]
      by_cases hp' : p.1 = k'
      · cases hp'
        rw [lookupBal_cons_self, lookupBal_cons_self]
      · rw [lookupBal_cons_ne _ _ _ hp', lookupBal_cons_ne p tl k' hp']
        exact ih

theorem addTransaction_cases (H : HashModel) (s : LedgerState)
    (tx : Transaction) :
    (∃ e, Transaction.validate H tx = .error e ∧
       addTransaction H s tx = (s, some e)) ∨
    (Transaction.validate H tx = .ok () ∧ poolContains s.pool tx.id = true ∧
       addTransaction H s tx = (s, some .DuplicateTransaction)) ∨
    (Transaction.validate H tx = .ok () ∧ poolContains s.pool tx.id = false ∧
       (tx.fromAddr ≠ "" ∧ (lookupBal s.balances tx.fromAddr).getD 0 < tx.amount) ∧
       addTransaction H s tx = (s, some .InsufficientBalance)) ∨
    (Transaction.validate H tx = .ok () ∧ poolContains s.pool tx.id = false ∧
       ¬ (tx.fromAddr ≠ "" ∧ (lookupBal s.balances tx.fromAddr).getD 0 < tx.amount) ∧
       s.queue.length < queueCapacity ∧
       addTransaction H s tx =
         ({ s with pool := poolInsert s.pool tx.id tx,
                   queue := s.queue ++ [tx] }, none)) ∨
    (Transaction.validate H tx = .ok () ∧ poolContains s.pool tx.id = false ∧
       ¬ (tx.fromAddr ≠ "" ∧ (lookupBal s.balances tx.fromAddr).getD 0 < tx.amount) ∧
       ¬ s.queue.length < queueCapacity ∧
       addTransaction H s tx =
         ({ s with pool := poolInsert s.pool tx.id tx },
          some (.PerformanceLimitExceeded "Transaction queue is full"))) := by
  cases hv : Transaction.validate H tx with
  | error e => exact Or.inl ⟨e, rfl, by simp [addTransaction, hv]⟩
  | ok u =>
    cases u
    by_cases hd : poolContains s.pool tx.id
    · exact Or.inr (Or.inl ⟨rfl, hd, by simp [addTransaction, hv, hd]⟩)
    · by_cases hb : tx.fromAddr ≠ "" ∧ (lookupBal s.balances tx.fromAddr).getD 0 < tx.amount
      · refine Or.inr (Or.inr (Or.inl ⟨rfl, by simpa using hd, hb, ?_⟩))
        simp [addTransaction, hv, hd, hb]
      · by_cases hq : s.queue.length < queueCapacity
        · refine Or.inr (Or.inr (Or.inr (Or.inl
            ⟨rfl, by simpa using hd, hb, hq, ?_⟩)))
          simp [addTransaction, hv, hd, hb, hq]
        · refine Or.inr (Or.inr (Or.inr (Or.inr
            ⟨rfl, by simpa using hd, hb, hq, ?_⟩)))
          simp [addTransaction, hv, hd, hb, hq]

theorem process_eq_some (H : HashModel) (fuel bid : Nat) (bts : Int) (dur : ℚ)
    (s : LedgerState) (batch : Nat) (s' : LedgerState)
    (e : Option LedgerError)
    (h : processTransactions H fuel bid bts dur s batch = some (s', e)) :
    (s.queue.take batch = [] ∧ s' = s ∧ e = none) ∨
    ∃ newBlock latest,
      s.queue.take batch ≠ [] ∧
      Block.mine H fuel
        (Block.new H bid bts (((s.blocks.getLast?).map Block.hash).getD "")
          (s.queue.take batch)) 2 = some newBlock ∧
      s.blocks.getLast? = some latest ∧
      ((∃ err, Block.validate H newBlock (some latest) = .error err ∧
          e = some err ∧
          s' = { s with queue := s.queue.drop batch,
                        balances := applyBalances s.balances (s.queue.take batch) }) ∨
       (Block.validate H newBlock (some latest) = .ok () ∧ e = none ∧
          s' = { s with queue := s.queue.drop batch,
                        balances := applyBalances s.balances (s.queue.take batch),
                        blocks := s.blocks ++ [newBlock],
                        perf := PerformanceData.recordBatch s.perf
                                  (s.queue.take batch).length dur })) := by
  simp only [processTransactions] at h
  split at h
  · next hemp =>
    left
    have h2 := Option.some.inj h
    exact ⟨List.isEmpty_iff.mp hemp, congrArg Prod.fst h2 |>.symm,
      congrArg Prod.snd h2 |>.symm⟩
  · next hemp =>
    right
    split at h
    · exact absurd h (by simp)
    · next newBlock hmine =>
      split at h
      · exact absurd h (by simp)
      · next latest hlast =>
        refine ⟨newBlock, latest, by simpa [List.isEmpty_iff] using hemp,
          hmine, hlast, ?_⟩
        split at h
        · next err herr =>
          left
          have h2 := Option.some.inj h
          exact ⟨err, herr, congrArg Prod.snd h2 |>.symm,
            congrArg Prod.fst h2 |>.symm⟩
        · next u hok =>
          right
          have h2 := Option.some.inj h
          refine ⟨?_, congrArg Prod.snd h2 |>.symm,
            congrArg Prod.fst h2 |>.symm⟩
          cases u
          exact hok

theorem poolLookup_poolInsert_self (pool : List (Nat × Transaction)) (id : Nat)
    (tx : Transaction) : poolLookup (poolInsert pool id tx) id = some tx := by
  induction pool with
  | nil => simp [poolLookup, poolInsert]
  | cons p tl ih =>
    by_cases hk : p.1 = id
    · unfold poolInsert
      rw [List.find?_cons_of_pos _ (by simp [hk])]
      simp only [Option.isSome_some, if_true, List.map_cons, if_pos hk]
      unfold poolLookup
      rw [List.find?_cons_of_pos _ (by simp [hk])]
      rfl
    · have hstep : poolInsert (p :: tl) id tx = p :: poolInsert tl id tx := by
        by_cases hs : (List.find? (fun q : Nat × Transaction => decide (q.1 = id)) tl).isSome = true
        · unfold poolInsert
          rw [List.find?_cons_of_neg _ (by simp [hk])]
          simp [hs, hk]
        · unfold poolInsert
          rw [List.find?_cons_of_neg _ (by simp [hk])]
          simp [hs, hk]
      rw [hstep]
      unfold poolLookup
      rw [List.find?_cons_of_neg _ (by simp [hk])]
      exact ih

theorem mineGo_transactions (H : HashModel) (fuel : Nat) (target : String)
    (b b' : Block) (h : Block.mineGo H fuel target b = some b') :
    b'.transactions = b.transactions := by
  induction fuel generalizing b with
  | zero =>
    simp only [Block.mineGo] at h
    split at h
    · injection h with h2; subst h2; rfl
    · exact absurd h (by simp)
  | succ n ih =>
    simp only [Block.mineGo] at h
    split at h
    · injection h with h2; subst h2; rfl
    · have := ih { b with nonce := (b.nonce + 1) % 2 ^ 64,
                          hash := Block.calculateHash H
                            { b with nonce := (b.nonce + 1) % 2 ^ 64 } } h
      simpa using this

theorem addTransaction_blocks (H : HashModel) (s : LedgerState)
    (tx : Transaction) : (addTransaction H s tx).1.blocks = s.blocks := by
  rcases addTransaction_cases H s tx with ⟨e, _, heq⟩ | ⟨_, _, heq⟩ |
    ⟨_, _, _, heq⟩ | ⟨_, _, _, _, heq⟩ | ⟨_, _, _, _, heq⟩ <;> rw [heq]

theorem chainOk_append (H : HashModel) (l : List Block) (b a : Block)
    (h : chainOk H l = true) (hlast : l.getLast? = some a)
    (hprev : b.previous_hash = a.hash)
    (hhash : b.hash = Block.calculateHash H b)
    (hstart : strStartsWith b.hash (mineTarget 2) = true) :
    chainOk H (l ++ [b]) = true := by
  induction l generalizing a with
  | nil => simp at hlast
  | cons x tl ih =>
    cases tl with
    | nil =>
      simp only [List.getLast?_singleton, Option.some.injEq] at hlast
      subst hlast
      simp only [List.cons_append, List.nil_append, chainOk, Bool.and_eq_true,
        decide_eq_true_eq]
      exact ⟨⟨⟨hprev, hhash⟩, hstart⟩, trivial⟩
    | cons y tl' =>
      rw [List.getLast?_cons_cons] at hlast
      simp only [chainOk, Bool.and_eq_true] at h
      simp only [List.cons_append, chainOk, Bool.and_eq_true]
      refine ⟨h.1, ?_⟩
      have := ih a h.2 hlast hprev
      simpa [List.cons_append] using this

/-- C1: the claim asserts that submitting the S1 genesis-issuance transaction
(empty `from`, non-empty `to`, positive amount) to a fresh ledger returns Ok.
The code evaluated at that failing input: `Transaction::validate` rejects the
empty `from`, so `add_transaction` returns the empty-address
`InvalidTransaction` error and the state is unchanged — the genesis fast path
the spec describes does not exist in the submit path. -/
theorem c1_genesis_submit_rejected :
    addTransaction hashA freshLedgerA txGenesisAlice =
      (freshLedgerA,
       some (.InvalidTransaction "From and to addresses cannot be empty")) := by
  decide

/-- C3: chain invariant.  In every reachable ledger state, every block after
its predecessor links to the predecessor's hash, carries its own recomputed
digest, and its hash meets the difficulty-2 leading-zero target; the chain is
only ever extended by appending such blocks. -/
theorem c3_chain_invariant (H : HashModel) (s : LedgerState)
    (h : Reachable H s) : chainOk H s.blocks = true := by
  induction h with
  | init gid gts => rfl
  | submit s tx hr ih =>
    rw [addTransaction_blocks]
    exact ih
  | process s fuel bid bts dur batch s' e hr hp ih =>
    rcases process_eq_some _ _ _ _ _ _ _ _ _ hp with ⟨_, rfl, _⟩ |
      ⟨nb, latest, hne, hmine, hlast, hbr⟩
    · exact ih
    · rcases hbr with ⟨err, herr, he, rfl⟩ | ⟨hok, he, rfl⟩
      · exact ih
      · have hv := blockValidate_ok H nb latest hok
        have hmine2 : Block.mineGo H fuel (mineTarget 2)
            (Block.new H bid bts (((s.blocks.getLast?).map Block.hash).getD "")
              (s.queue.take batch)) = some nb := hmine
        have hsw : strStartsWith nb.hash (mineTarget 2) = true :=
          mineGo_startsWith H fuel (mineTarget 2) _ nb hmine2
        exact chainOk_append H s.blocks nb latest ih hlast hv.2 hv.1 hsw

/-- Witness for C3 at the concrete initial state over `hashA`. -/
theorem c3_chain_invariant_witness :
    chainOk hashA (DistributedLedger.new hashA 0 0).blocks = true :=
  c3_chain_invariant hashA (DistributedLedger.new hashA 0 0)
    (Reachable.init 0 0)

/-- C4: postcondition of `Block::mine`.  For a block whose stored hash is the
digest of its fields (as `Block::new` establishes), if the mining loop
returns within the fuel (and the nonce cannot wrap), the resulting block's
hash is the recomputed digest of its current fields, it starts with
`difficulty` hex-zero characters, and the nonce has only been monotonically
incremented from its starting value. -/
theorem c4_mine_postcondition (H : HashModel) (fuel : Nat) (b b' : Block)
    (difficulty : Nat) (hc : b.hash = Block.calculateHash H b)
    (hn : b.nonce + fuel < 2 ^ 64)
    (h : Block.mine H fuel b difficulty = some b') :
    b'.hash = Block.calculateHash H b' ∧
    strStartsWith b'.hash (mineTarget difficulty) = true ∧
    b.nonce ≤ b'.nonce := by
  have h2 : Block.mineGo H fuel (mineTarget difficulty) b = some b' := h
  exact ⟨mineGo_hash H fuel (mineTarget difficulty) b b' hc h2,
    mineGo_startsWith H fuel (mineTarget difficulty) b b' h2,
    mineGo_nonce H fuel (mineTarget difficulty) b b' hn h2⟩

/-- Witness for C4: over `hashB` the block constructed by `Block::new` mines
at difficulty 2 in two nonce increments, and the postconditions hold at the
concrete result. -/
theorem c4_mine_postcondition_witness :
    (Block.new hashB 0 0 "" []).hash =
        Block.calculateHash hashB (Block.new hashB 0 0 "" []) ∧
    (Block.new hashB 0 0 "" []).nonce + 5 < 2 ^ 64 ∧
    Block.mine hashB 5 (Block.new hashB 0 0 "" []) 2 = some minedBlockB ∧
    minedBlockB.hash = Block.calculateHash hashB minedBlockB ∧
    strStartsWith minedBlockB.hash (mineTarget 2) = true ∧
    (Block.new hashB 0 0 "" []).nonce ≤ minedBlockB.nonce := by
  refine ⟨by decide, by decide, by decide, ?_, ?_, ?_⟩
  · exact (c4_mine_postcondition hashB 5 (Block.new hashB 0 0 "" []) _ 2
      (by decide) (by decide) (by decide)).1
  · exact (c4_mine_postcondition hashB 5 (Block.new hashB 0 0 "" []) _ 2
      (by decide) (by decide) (by decide)).2.1
  · exact (c4_mine_postcondition hashB 5 (Block.new hashB 0 0 "" []) _ 2
      (by decide) (by decide) (by decide)).2.2

/-- C2 counterexample: the claim says the applied debit floors at zero when
the amount exceeds the previous balance.  At the concrete overspend state
(alice holds 0, a drained transfer of 1 from alice), the processed balance of
alice is `2^64 - 1`, not 0: the debit wrapped around. -/
theorem c2_counterexample :
    (processTransactions hashA 5 7 0 1 overspendState 10).map
        (fun r => getBalance r.1 "alice") = some (2 ^ 64 - 1) ∧
    ¬ (2 ^ 64 - 1 = 0) := by
  exact ⟨by decide, by decide⟩

/-- C2 amended: for every transaction drained by process with non-empty
`from` whose account is present with balance `b`, the applied debit is the
wrapping u64 subtraction — the new balance is `(b - amount) mod 2^64`, which
equals `b - amount` when the amount is covered and wraps around (rather than
flooring at zero) when the amount exceeds `b` — while the credit to `to`
still lands in full (modulo 2^64). -/
theorem c2_wrapping_debit (tx : Transaction) (m : List (String × Nat))
    (b : Nat) (hf : tx.fromAddr ≠ "") (hft : tx.fromAddr ≠ tx.toAddr)
    (hb : lookupBal m tx.fromAddr = some b) :
    lookupBal (applyTxBalance m tx) tx.fromAddr = some (u64sub b tx.amount) ∧
    lookupBal (applyTxBalance m tx) tx.toAddr =
      some ((lookupBal m tx.toAddr).elim tx.amount
        (fun c => (c + tx.amount) % 2 ^ 64)) ∧
    (tx.amount ≤ b → b < 2 ^ 64 → u64sub b tx.amount = b - tx.amount) ∧
    (b < tx.amount → tx.amount < 2 ^ 64 →
       u64sub b tx.amount = 2 ^ 64 + b - tx.amount) := by
  have happ : applyTxBalance m tx =
      entryModifyOrInsert
        (entryModifyOrInsert m tx.fromAddr (fun c => u64sub c tx.amount) 0)
        tx.toAddr (fun c => (c + tx.amount) % 2 ^ 64) tx.amount := by
    simp [applyTxBalance, hf]
  refine ⟨?_, ?_, ?_, ?_⟩
  · rw [happ, lookupBal_entryModify_ne _ _ _ _ _ hft,
      lookupBal_entryModify_self, hb]
    rfl
  · rw [happ, lookupBal_entryModify_self,
      lookupBal_entryModify_ne _ _ _ _ _ (Ne.symm hft)]
  · intro hle hlt
    have h64 : (2 : Nat) ^ 64 = 18446744073709551616 := by norm_num
    simp only [u64sub, h64] at hlt ⊢
    omega
  · intro hlt hlt2
    have h64 : (2 : Nat) ^ 64 = 18446744073709551616 := by norm_num
    simp only [u64sub, h64] at hlt hlt2 ⊢
    omega

/-- Witness for the amended C2 at the concrete overspend shape: alice present
with balance 0, drained transfer of amount 1. -/
theorem c2_wrapping_debit_witness :
    lookupBal [("alice", 0)] "alice" = some 0 ∧
    lookupBal
        (applyTxBalance [("alice", 0)]
          (Transaction.new hashA 3 0 "alice" "bob" 1)) "alice" =
      some (u64sub 0 1) := by
  refine ⟨by decide, ?_⟩
  exact (c2_wrapping_debit (Transaction.new hashA 3 0 "alice" "bob" 1)
    [("alice", 0)] 0 (by decide) (by decide) (by decide)).1

/-- C5: given a transaction that passes validation and whose id is not in the
pool, submit returns InsufficientBalance exactly when `from` is non-empty and
the recorded balance of `from` (0 when absent) is below the amount. -/
theorem c5_insufficient_iff (H : HashModel) (s : LedgerState)
    (tx : Transaction) (hv : Transaction.validate H tx = .ok ())
    (hp : poolContains s.pool tx.id = false) :
    (addTransaction H s tx).2 = some .InsufficientBalance ↔
      (tx.fromAddr ≠ "" ∧
        (lookupBal s.balances tx.fromAddr).getD 0 < tx.amount) := by
  rcases addTransaction_cases H s tx with ⟨e, hve, heq⟩ | ⟨_, hd, heq⟩ |
    ⟨_, _, hb, heq⟩ | ⟨_, _, hb, _, heq⟩ | ⟨_, _, hb, _, heq⟩
  · rw [hve] at hv; exact absurd hv (by simp)
  · rw [hd] at hp; exact absurd hp (by simp)
  · rw [heq]
    exact ⟨fun _ => hb, fun _ => rfl⟩
  · rw [heq]
    exact ⟨fun hcon => absurd hcon (by simp), fun hcon => absurd hcon hb⟩
  · rw [heq]
    exact ⟨fun hcon => absurd hcon (by simp), fun hcon => absurd hcon hb⟩

/-- Witness for C5 at the concrete S3 shape: fresh ledger, transfer
`("alice", "bob", 1)`; the iff holds with both sides true. -/
theorem c5_insufficient_iff_witness :
    Transaction.validate hashA txAliceBob = .ok () ∧
    poolContains freshLedgerA.pool txAliceBob.id = false ∧
    ((addTransaction hashA freshLedgerA txAliceBob).2 =
        some .InsufficientBalance ↔
      (txAliceBob.fromAddr ≠ "" ∧
        (lookupBal freshLedgerA.balances txAliceBob.fromAddr).getD 0 <
          txAliceBob.amount)) := by
  refine ⟨rfl, by decide, ?_⟩
  exact c5_insufficient_iff hashA freshLedgerA txAliceBob rfl (by decide)

/-- C6: submit is atomic on rejection except for backpressure: on
InvalidTransaction, DuplicateTransaction or InsufficientBalance the whole
state is unchanged; on PerformanceLimitExceeded the chain, balances and queue
are unchanged while the pool keeps the inserted entry for the transaction. -/
theorem c6_submit_atomicity (H : HashModel) (s : LedgerState)
    (tx : Transaction) (e : LedgerError)
    (h : (addTransaction H s tx).2 = some e) :
    (((∃ m, e = .InvalidTransaction m) ∨ e = .DuplicateTransaction ∨
        e = .InsufficientBalance) → (addTransaction H s tx).1 = s) ∧
    ((∃ m, e = .PerformanceLimitExceeded m) →
       (addTransaction H s tx).1.blocks = s.blocks ∧
       (addTransaction H s tx).1.balances = s.balances ∧
       (addTransaction H s tx).1.queue = s.queue ∧
       (addTransaction H s tx).1.pool = poolInsert s.pool tx.id tx ∧
       poolLookup (addTransaction H s tx).1.pool tx.id = some tx) := by
  rcases addTransaction_cases H s tx with ⟨e0, hve, heq⟩ | ⟨_, _, heq⟩ |
    ⟨_, _, _, heq⟩ | ⟨_, _, _, _, heq⟩ | ⟨_, _, _, _, heq⟩
  · rw [heq] at h ⊢
    have he : e0 = e := Option.some.inj h
    subst he
    obtain ⟨m, hm⟩ := txValidate_error_shape H tx e0 hve
    subst hm
    exact ⟨fun _ => rfl, fun hple => absurd hple (by simp)⟩
  · rw [heq] at h ⊢
    have he := Option.some.inj h
    subst he
    exact ⟨fun _ => rfl, fun hple => absurd hple (by simp)⟩
  · rw [heq] at h ⊢
    have he := Option.some.inj h
    subst he
    exact ⟨fun _ => rfl, fun hple => absurd hple (by simp)⟩
  · rw [heq] at h
    exact absurd h (by simp)
  · rw [heq] at h ⊢
    have he := Option.some.inj h
    subst he
    refine ⟨fun hcon => ?_,
      fun _ => ⟨rfl, rfl, rfl, rfl, poolLookup_poolInsert_self s.pool tx.id tx⟩⟩
    rcases hcon with ⟨m, hm⟩ | hm | hm <;> simp at hm

/-- Witness for C6 at the concrete S3 rejection: the InsufficientBalance
rejection leaves the fresh ledger unchanged. -/
theorem c6_submit_atomicity_witness :
    (addTransaction hashA freshLedgerA txAliceBob).2 =
        some .InsufficientBalance ∧
    (addTransaction hashA freshLedgerA txAliceBob).1 = freshLedgerA := by
  refine ⟨by decide, ?_⟩
  exact (c6_submit_atomicity hashA freshLedgerA txAliceBob .InsufficientBalance
    (by decide)).1 (Or.inr (Or.inr rfl))

/-- C7 counterexample: the claim says process surfaces only Ok or
BlockValidationFailed for every queue content; at the concrete state whose
queue holds a zero-amount transaction, process surfaces an error outside that
contract (the InvalidTransaction propagated from per-transaction
validation). -/
theorem c7_counterexample :
    (processTransactions hashA 5 7 0 1 invalidQueueState 10).map
      (fun r => isOkOrBVF r.2) = some false := by
  decide

/-- C7 amended: for every batch size and every queue content whose drained
transactions individually pass validation, process returns Ok or a
BlockValidationFailed error; the only other possible surfaced error is an
InvalidTransaction propagated from a drained transaction failing individual
validation inside block validation. -/
theorem c7_process_error_contract (H : HashModel) (fuel bid : Nat) (bts : Int)
    (dur : ℚ) (s : LedgerState) (batch : Nat) (s' : LedgerState)
    (e : Option LedgerError)
    (hq : ∀ tx ∈ s.queue.take batch, Transaction.validate H tx = .ok ())
    (h : processTransactions H fuel bid bts dur s batch = some (s', e)) :
    isOkOrBVF e = true := by
  rcases process_eq_some _ _ _ _ _ _ _ _ _ h with ⟨_, _, rfl⟩ |
    ⟨nb, latest, hne, hmine, hlast, hbr⟩
  · rfl
  · rcases hbr with ⟨err, herr, rfl, _⟩ | ⟨_, rfl, _⟩
    · rcases blockValidate_error H nb _ err herr with ⟨m, rfl⟩ | hvt
      · rfl
      · have hmine2 : Block.mineGo H fuel (mineTarget 2)
            (Block.new H bid bts
              (((s.blocks.getLast?).map Block.hash).getD "")
              (s.queue.take batch)) = some nb := hmine
        have htx : nb.transactions = s.queue.take batch :=
          mineGo_transactions H fuel (mineTarget 2) _ nb hmine2
        rw [htx] at hvt
        obtain ⟨tx, hmem, hverr⟩ := validateTxs_error H _ err hvt
        rw [hq tx hmem] at hverr
        exact absurd hverr (by simp)
    · rfl

/-- Witness for the amended C7: the concrete good queue processes to Ok. -/
theorem c7_process_error_contract_witness :
    processTransactions hashA 5 7 0 0 goodQueueState 10 =
      some (goodProcessedState, none) ∧
    isOkOrBVF none = true := by
  have h : processTransactions hashA 5 7 0 0 goodQueueState 10 =
      some (goodProcessedState, none) := by decide
  refine ⟨h, ?_⟩
  refine c7_process_error_contract hashA 5 7 0 0 goodQueueState 10
    goodProcessedState none ?_ h
  intro tx htx
  have htxe : tx = Transaction.new hashA 5 0 "alice" "bob" 2 := by
    simpa [goodQueueState] using htx
  rw [htxe]
  rfl

/-- C9 counterexample: two blocks constructed with identical inputs (same
previous hash `"p"`, same empty transaction sequence) but distinct ambient
id draws mine at difficulty 2 to different hashes, so construction inputs do
not determine the mined hash. -/
theorem c9_counterexample :
    ¬ ((Block.mine hashC 3 (Block.new hashC 0 0 "p" []) 2).map Block.hash =
       (Block.mine hashC 3 (Block.new hashC 1 0 "p" []) 2).map Block.hash) := by
  decide

/-- C9 amended: mining is deterministic as a function of the block's fields:
two blocks agreeing on all fields (id, previous hash, transactions,
timestamp, starting nonce and stored hash) mine at any difficulty to
identical hash and identical nonce. -/
theorem c9_mine_deterministic (H : HashModel) (fuel difficulty : Nat)
    (b1 b2 : Block) (hid : b1.id = b2.id)
    (hprev : b1.previous_hash = b2.previous_hash)
    (htxs : b1.transactions = b2.transactions)
    (hts : b1.timestamp = b2.timestamp) (hn : b1.nonce = b2.nonce)
    (hh : b1.hash = b2.hash) :
    (Block.mine H fuel b1 difficulty).map (fun b => (b.hash, b.nonce)) =
      (Block.mine H fuel b2 difficulty).map (fun b => (b.hash, b.nonce)) := by
  have hb : b1 = b2 := by
    cases b1; cases b2
    simp_all
  rw [hb]

/-- Witness for the amended C9 at a concrete block. -/
theorem c9_mine_deterministic_witness :
    (Block.mine hashA 3 (Block.new hashA 0 0 "" []) 2).map
        (fun b => (b.hash, b.nonce)) =
      (Block.mine hashA 3 (Block.new hashA 0 0 "" []) 2).map
        (fun b => (b.hash, b.nonce)) :=
  c9_mine_deterministic hashA 3 2 (Block.new hashA 0 0 "" [])
    (Block.new hashA 0 0 "" []) rfl rfl rfl rfl rfl rfl

/-- C10: process is not atomic on failure.  Whenever process returns an
error, the drained transactions have been removed from the queue and their
balance mutations persist, while no block was appended and pool and monitor
are untouched. -/
theorem c10_process_error_persistence (H : HashModel) (fuel bid : Nat)
    (bts : Int) (dur : ℚ) (s : LedgerState) (batch : Nat) (s' : LedgerState)
    (e : LedgerError)
    (h : processTransactions H fuel bid bts dur s batch = some (s', some e)) :
    s'.balances = applyBalances s.balances (s.queue.take batch) ∧
    s'.queue = s.queue.drop batch ∧
    s'.blocks = s.blocks ∧ s'.pool = s.pool ∧ s'.perf = s.perf := by
  rcases process_eq_some _ _ _ _ _ _ _ _ _ h with ⟨_, _, hcon⟩ |
    ⟨nb, latest, _, _, _, hbr⟩
  · exact absurd hcon (by simp)
  · rcases hbr with ⟨err, herr, hes, rfl⟩ | ⟨_, hcon, _⟩
    · exact ⟨rfl, rfl, rfl, rfl, rfl⟩
    · exact absurd hcon (by simp)

/-- Witness for C10 at the concrete failing batch: the zero-amount
transaction is drained, the balance entries it touched persist, and no block
is appended. -/
theorem c10_process_error_persistence_witness :
    processTransactions hashA 5 7 0 1 invalidQueueState 10 =
      some (invalidProcessedState,
        some (.InvalidTransaction "Amount must be greater than zero")) ∧
    invalidProcessedState.balances =
      applyBalances invalidQueueState.balances
        (invalidQueueState.queue.take 10) ∧
    invalidProcessedState.queue = invalidQueueState.queue.drop 10 ∧
    invalidProcessedState.blocks = invalidQueueState.blocks := by
  have h : processTransactions hashA 5 7 0 1 invalidQueueState 10 =
      some (invalidProcessedState,
        some (.InvalidTransaction "Amount must be greater than zero")) := by
    decide
  have h2 := c10_process_error_persistence hashA 5 7 0 1 invalidQueueState 10
    invalidProcessedState
    (.InvalidTransaction "Amount must be greater than zero") h
  exact ⟨h, h2.1, h2.2.1, h2.2.2.1⟩

/-- C8: after every `record_batch(size, duration)` call (with a window and
peak satisfying the monitor's own invariants and no u64 overflow of the
total): the total has increased by exactly `size`; the rolling window holds
at most 100 entries, the oldest pair being evicted exactly when the window
would exceed 100; and the peak becomes the maximum of its previous value and
`size / duration`, the update being skipped when the duration is zero. -/
theorem c8_record_batch (d : PerformanceData) (size : Nat) (dur : ℚ)
    (hov : d.total_transactions + size < 2 ^ 64)
    (hw : d.batch_times.length ≤ 100) (hpk : 0 ≤ d.peak_tps) :
    (d.recordBatch size dur).total_transactions =
        d.total_transactions + size ∧
    (d.recordBatch size dur).batch_times.length ≤ 100 ∧
    (d.recordBatch size dur).batch_times =
      (if d.batch_times.length < 100 then d.batch_times ++ [dur]
       else (d.batch_times ++ [dur]).tail) ∧
    (d.recordBatch size dur).batch_sizes =
      (if d.batch_times.length < 100 then d.batch_sizes ++ [size]
       else (d.batch_sizes ++ [size]).tail) ∧
    (0 < dur →
       (d.recordBatch size dur).peak_tps =
         max d.peak_tps ((size : ℚ) / dur)) ∧
    (dur = 0 → (d.recordBatch size dur).peak_tps = d.peak_tps) := by
  refine ⟨?_, ?_, ?_, ?_, ?_, ?_⟩
  · simp only [PerformanceData.recordBatch]
    exact Nat.mod_eq_of_lt hov
  · simp only [PerformanceData.recordBatch]
    by_cases hc : (d.batch_times ++ [dur]).length > 100
    · rw [if_pos hc]
      simp only [List.length_tail, List.length_append, List.length_singleton]
      omega
    · rw [if_neg hc]
      simp only [List.length_append, List.length_singleton] at hc ⊢
      omega
  · simp only [PerformanceData.recordBatch]
    by_cases hc : d.batch_times.length < 100
    · rw [if_neg (show ¬ (d.batch_times ++ [dur]).length > 100 by
        simp only [List.length_append, List.length_singleton]; omega),
        if_pos hc]
    · rw [if_pos (show (d.batch_times ++ [dur]).length > 100 by
        simp only [List.length_append, List.length_singleton]; omega),
        if_neg hc]
  · simp only [PerformanceData.recordBatch]
    by_cases hc : d.batch_times.length < 100
    · rw [if_neg (show ¬ (d.batch_times ++ [dur]).length > 100 by
        simp only [List.length_append, List.length_singleton]; omega),
        if_pos hc]
    · rw [if_pos (show (d.batch_times ++ [dur]).length > 100 by
        simp only [List.length_append, List.length_singleton]; omega),
        if_neg hc]
  · intro hdur
    simp only [PerformanceData.recordBatch, if_pos hdur]
    rcases le_or_lt ((size : ℚ) / dur) d.peak_tps with hle | hlt
    · rw [if_neg (not_lt.mpr hle), max_eq_left hle]
    · rw [if_pos hlt, max_eq_right (le_of_lt hlt)]
  · intro hdur
    subst hdur
    simp only [PerformanceData.recordBatch, lt_irrefl, if_false]
    rw [if_neg (not_lt.mpr hpk)]

/-- Witness for C8: recording a batch of 4 over 2 seconds on a fresh
monitor. -/
theorem c8_record_batch_witness :
    PerformanceData.init.total_transactions + 4 < 2 ^ 64 ∧
    (PerformanceData.init.recordBatch 4 2).total_transactions = 4 ∧
    (PerformanceData.init.recordBatch 4 2).batch_times = [(2 : ℚ)] ∧
    (PerformanceData.init.recordBatch 4 2).batch_sizes = [4] ∧
    (PerformanceData.init.recordBatch 4 2).peak_tps =
      max 0 ((4 : ℚ) / 2) := by
  have h := c8_record_batch PerformanceData.init 4 2
    (by norm_num [PerformanceData.init]) (by simp [PerformanceData.init])
    (le_refl 0)
  refine ⟨by norm_num [PerformanceData.init], h.1, ?_, ?_, ?_⟩
  · rw [h.2.2.1]
    simp [PerformanceData.init]
  · rw [h.2.2.2.1]
    simp [PerformanceData.init]
  · exact h.2.2.2.2.1 (by norm_num)
